import Mathlib

/-!
movies-websites: list cleanup, domain probing and report rendering.

A shallow embedding of `src/main.go`.

* Go strings are modelled as lists of Unicode code points (`List Char`), that is,
  as valid UTF-8 text.  On such text Go's byte-wise string comparison coincides
  with the lexicographic order on code points, and `fmt` measures widths in
  code points.
* Go maps are modelled as association lists whose keys are pairwise distinct; the
  order of the list plays the role of the (unspecified) iteration order.
* The file system is a map from paths to file contents.
* The network (`net.Lookup*`, `http.Get`) and `url.Parse` are oracles.
* A run-time panic is an explicit error result.  Logging is not modelled.
-/

namespace MoviesWebsites

/-! ## Strings and maps -/

/-- A Go string, as its sequence of code points. -/
abbrev GoString := List Char

/-- A Go `map[string]V`, as an association list. -/
abbrev GoMap (V : Type) := List (GoString × V)

/-- The expression `m[k]` of Go: the stored value, or the zero value of `V`. -/
def mapIndex {V : Type} (zero : V) (m : GoMap V) (k : GoString) : V :=
  (List.lookup k m).getD zero

/-- The statement `m[k] = v` of Go: overwrite the entry of `k`, or add one. -/
def mapAssign {V : Type} : GoMap V → GoString → V → GoMap V
  | [], k, v => [(k, v)]
  | (k0, v0) :: rest, k, v =>
    if k0 = k then (k, v) :: rest else (k0, v0) :: mapAssign rest k v

/-- The keys of a map, in iteration order. -/
def mapKeys {V : Type} (m : GoMap V) : List GoString := m.map Prod.fst

/-- The function `strings.TrimPrefix`. -/
def TrimPrefix (s pre : GoString) : GoString :=
  if pre.isPrefixOf s then s.drop pre.length else s

/-- The function `strings.TrimSuffix`. -/
def TrimSuffix (s suf : GoString) : GoString :=
  if suf.isSuffixOf s then s.take (s.length - suf.length) else s

/-- The scanning loop of `strings.ReplaceAll` for a non-empty `old`: the first
argument counts the characters of a match that remain to be skipped. -/
def replaceScan (old new : GoString) : Nat → GoString → GoString
  | _, [] => []
  | k + 1, _ :: cs => replaceScan old new k cs
  | 0, c :: cs =>
    if old.isPrefixOf (c :: cs) then new ++ replaceScan old new (old.length - 1) cs
    else c :: replaceScan old new 0 cs

/-- The function `strings.ReplaceAll`: every non-overlapping occurrence of `old`,
found from left to right, is replaced by `new`; the inserted text is not
scanned again.  With an empty `old`, `new` is inserted before every character
and at the end. -/
def ReplaceAll (s old new : GoString) : GoString :=
  if old = new then s
  else if old = [] then new ++ s.flatMap (fun c => c :: new)
  else replaceScan old new 0 s

/-- The number of positions of `s` at which `pat` occurs. -/
def occurrences (pat : GoString) : GoString → Nat
  | [] => if pat.isPrefixOf [] then 1 else 0
  | c :: cs => (if pat.isPrefixOf (c :: cs) then 1 else 0) + occurrences pat cs

/-- The padding done by `fmt` for a string operand: spaces up to `width` code
points, on the right with the `-` flag and on the left without it; a longer
operand is left as it is. -/
def padString (minus : Bool) (width : Nat) (s : GoString) : GoString :=
  if minus then s ++ List.replicate (width - s.length) ' '
  else List.replicate (width - s.length) ' ' ++ s

/-- The state of the format scanner of `Sprintf`: copying literal text, or inside
a directive after `%` with the flag and width read so far. -/
inductive FmtState where
  | literal : FmtState
  | directive (minus : Bool) (width : Nat) : FmtState

/-- The function `fmt.Sprintf` on string operands, for formats made of literal
text and `%s` directives with an optional `-` flag and decimal width, which is
all the program uses.  Other directives are not modelled and produce nothing. -/
def sprintfAux : FmtState → GoString → List GoString → GoString
  | .literal, [], _ => []
  | .literal, c :: cs, args =>
    if c = '%' then sprintfAux (.directive false 0) cs args
    else c :: sprintfAux .literal cs args
  | .directive _ _, [], _ => []
  | .directive minus width, c :: cs, args =>
    if c = '-' then sprintfAux (.directive true width) cs args
    else if c.isDigit then
      sprintfAux (.directive minus (width * 10 + (c.toNat - '0'.toNat))) cs args
    else if c = 's' then
      match args with
      | [] => sprintfAux .literal cs []
      | a :: rest => padString minus width a ++ sprintfAux .literal cs rest
    else sprintfAux .literal cs args

/-- The function `fmt.Sprintf`, see `sprintfAux`. -/
def Sprintf (format : GoString) (args : List GoString) : GoString :=
  sprintfAux .literal format args

/-! ## The environment: files, network, URL parsing -/

/-- The file system: regular files by path. -/
abbrev FS := GoMap GoString

/-- The part of a parsed `*url.URL` that the program reads: what its method
`Hostname()` returns. -/
structure URL where
  Hostname : GoString
deriving DecidableEq

/-- The oracles.  A lookup is `true` when it returns a nil error.  `httpGet`
gives the status code of the response, or `none` when `http.Get` returns an
error.  `urlParse` is `url.Parse`: on failure it returns the error together
with a nil `*URL`. -/
structure Net where
  LookupNS : GoString → Bool
  LookupCNAME : GoString → Bool
  LookupAddr : GoString → Bool
  LookupHost : GoString → Bool
  LookupMX : GoString → Bool
  LookupTXT : GoString → Bool
  LookupIP : GoString → Bool
  httpGet : GoString → Option Nat
  urlParse : GoString → Except GoString URL

/-- A run-time panic of the Go program. -/
inductive Panic where
  | nilPointerDereference : Panic
deriving DecidableEq

/-! ## Global variables -/

def movies_websites_path : GoString := "assets/movies-websites.txt".toList

def readme_modify_me_file_path : GoString := "assets/readme_modify_me.md".toList

def readme_file_path : GoString := "readme.md".toList

/-- The placeholder that `writeFinalOutput` passes to `findAndReplaceInFile`. -/
def placeholder : GoString := "[\x7bREPLACE_CONTENT_WITH_GOLANG\x7d]".toList

/-! ## The functions of `main.go` -/

/-- The function `fileExists`; directories are not part of the model. -/
def fileExists (fs : FS) (filename : GoString) : Bool :=
  (List.lookup filename fs).isSome

/-- The number of bytes of the UTF-8 encoding of a string. -/
def utf8Len (s : GoString) : Nat := (s.map Char.utf8Size).sum

/-- The helper `dropCR` of `bufio.ScanLines`. -/
def dropCR (data : GoString) : GoString :=
  if data.getLast? = some '\r' then data.dropLast else data

/-- The loop `for scanner.Scan()` with the split function `bufio.ScanLines`:
`cur` is the line read so far.  A line ends at `\n`; one trailing `\r` is
dropped; a last line without `\n` is a line when it is not empty.  Scanning
stops, without the line, when a line reaches `maxTok` bytes with no `\n`. -/
def scanLines (maxTok : Nat) : GoString → GoString → List GoString
  | cur, [] => if cur = [] then [] else [dropCR cur]
  | cur, c :: cs =>
    if c = '\n' then dropCR cur :: scanLines maxTok [] cs
    else if maxTok ≤ utf8Len (cur ++ [c]) then []
    else scanLines maxTok (cur ++ [c]) cs

/-- The constant `bufio.MaxScanTokenSize`. -/
def MaxScanTokenSize : Nat := 64 * 1024

/-- The function `readAppendLineByLine`; a file that cannot be opened gives no
line. -/
def readAppendLineByLine (fs : FS) (path : GoString) : List GoString :=
  match List.lookup path fs with
  | none => []
  | some content => scanLines MaxScanTokenSize [] content

/-- The function `isDomainRegistered`. -/
def isDomainRegistered (net : Net) (domain : GoString) : Bool :=
  if net.LookupNS domain then true
  else if net.LookupCNAME domain then true
  else if net.LookupAddr domain then true
  else if net.LookupHost domain then true
  else if net.LookupMX domain then true
  else if net.LookupTXT domain then true
  else if net.LookupIP domain then true
  else false

/-- The constant `http.StatusOK`. -/
def StatusOK : Nat := 200

/-- The loop over the protocols in `CheckWebsiteHTTPStatus`. -/
def checkProtocols (net : Net) (domain : GoString) : List GoString → Bool
  | [] => false
  | protocol :: rest =>
    match net.httpGet (protocol ++ domain) with
    | some code => if code = StatusOK then true else checkProtocols net domain rest
    | none => checkProtocols net domain rest

/-- The function `CheckWebsiteHTTPStatus`. -/
def CheckWebsiteHTTPStatus (net : Net) (domain : GoString) : Bool :=
  checkProtocols net domain ["http://".toList, "https://".toList]

/-- The function `getDomainFromURL`.  When `url.Parse` fails the error is only
logged; `parsedUrl` is then nil and `parsedUrl.Hostname()` reads a field through
the nil pointer, which panics. -/
def getDomainFromURL (net : Net) (givenURL : GoString) : Except Panic GoString :=
  match net.urlParse givenURL with
  | .error _ => .error .nilPointerDereference
  | .ok parsedUrl => .ok parsedUrl.Hostname

/-- The function `addKeyValueToMap`. -/
def addKeyValueToMap (providedMap : GoMap GoString) (key value : GoString) :
    GoMap GoString :=
  mapAssign providedMap key value

/-- The function `sortSlice`.  `sort.Strings` sorts in increasing order; the
result, being the only sorted rearrangement, is computed here by insertion. -/
def sortSlice (slice : List GoString) : List GoString :=
  slice.insertionSort (· ≤ ·)

/-- The loop of `removeDuplicatesFromSlice`, with its two variables `check` and
`newReturnSlice`. -/
def removeDuplicatesLoop :
    GoMap Bool → List GoString → List GoString → List GoString
  | _, newReturnSlice, [] => newReturnSlice
  | check, newReturnSlice, content :: rest =>
    if !(mapIndex false check content) then
      removeDuplicatesLoop (mapAssign check content true) (newReturnSlice ++ [content]) rest
    else removeDuplicatesLoop check newReturnSlice rest

/-- The function `removeDuplicatesFromSlice`. -/
def removeDuplicatesFromSlice (slice : List GoString) : List GoString :=
  removeDuplicatesLoop [] [] slice

/-- The list cleanup of `main`: sort, then remove duplicates. -/
def clean (urls : List GoString) : List GoString :=
  removeDuplicatesFromSlice (sortSlice urls)

/-- The function `writeByteSliceToFile`: the file is created empty and every
string is written after the previous one. -/
def writeByteSliceToFile (fs : FS) (path : GoString) (data : List GoString) : FS :=
  mapAssign fs path (data.foldl (fun written str => written ++ str) [])

/-- The function `removeFile`. -/
def removeFile (fs : FS) (path : GoString) : FS :=
  fs.filter (fun entry => entry.1 ≠ path)

/-- The function `sortMapByKeys`; a pair `[]string{key, value}` is a Lean pair. -/
def sortMapByKeys (inputMap : GoMap GoString) : List (GoString × GoString) :=
  let keys := (mapKeys inputMap).insertionSort (· ≤ ·)
  keys.map (fun key => (key, mapIndex [] inputMap key))

/-- The display label computed in the loop of `writeFinalOutput`. -/
def website (url : GoString) : GoString :=
  let website := TrimSuffix (TrimPrefix url "http://".toList) "/".toList
  TrimSuffix (TrimPrefix website "https://".toList) "/".toList

/-- The format of a table row in `writeFinalOutput`. -/
def rowFormat : GoString := "| [%s](%s) | %-12s |\n".toList

/-- The loop of `writeFinalOutput` over the sorted pairs, appending to `output`. -/
def writeRows (output : GoString) : List (GoString × GoString) → GoString
  | [] => output
  | (url, availability) :: rest =>
    writeRows (output ++ Sprintf rowFormat [website url, url, availability]) rest

/-- The Markdown table built by `writeFinalOutput`: `output.String()`. -/
def tableText (valid_movies_website_url : GoMap GoString) : GoString :=
  let output := "| Website| Availability |\n".toList
  let output := output ++ "|--------|--------------|\n".toList
  writeRows output (sortMapByKeys valid_movies_website_url)

/-- The function `findAndReplaceInFile`; when the file cannot be read the content
is empty. -/
def findAndReplaceInFile (fs : FS) (oldFilePath newFilePath prefixContent
    givenContent : GoString) : FS :=
  let content := (List.lookup oldFilePath fs).getD []
  let updatedContent := ReplaceAll content prefixContent givenContent
  mapAssign fs newFilePath updatedContent

/-- The function `writeFinalOutput`. -/
def writeFinalOutput (fs : FS) (valid_movies_website_url : GoMap GoString) : FS :=
  findAndReplaceInFile fs readme_modify_me_file_path readme_file_path placeholder
    (tableText valid_movies_website_url)

/-- The body of the probe loop of `main` for one URL. -/
def probeURL (net : Net) (valid_movies_website_url : GoMap GoString)
    (domainName : GoString) : Except Panic (GoMap GoString) :=
  match getDomainFromURL net domainName with
  | .error p => .error p
  | .ok domain =>
    if isDomainRegistered net domain then
      let m := addKeyValueToMap valid_movies_website_url domainName "Maybe".toList
      match getDomainFromURL net domainName with
      | .error p => .error p
      | .ok domain2 =>
        if CheckWebsiteHTTPStatus net domain2 then
          .ok (addKeyValueToMap m domainName "Yes".toList)
        else .ok m
    else .ok (addKeyValueToMap valid_movies_website_url domainName "No".toList)

/-- The probe loop of `main`: `for _, domainName := range movies_website_urls`. -/
def probeLoop (net : Net) :
    GoMap GoString → List GoString → Except Panic (GoMap GoString)
  | valid_movies_website_url, [] => .ok valid_movies_website_url
  | valid_movies_website_url, domainName :: rest =>
    match probeURL net valid_movies_website_url domainName with
    | .error p => .error p
    | .ok m => probeLoop net m rest

/-- The function `main`, started with the files `fs`; the global map is empty at
program start.  The result is the file system at exit, and the result map or
the panic that ended the run. -/
def main (net : Net) (fs : FS) : FS × Except Panic (GoMap GoString) :=
  let valid_movies_website_url : GoMap GoString := []
  if fileExists fs movies_websites_path then
    let movies_website_urls := readAppendLineByLine fs movies_websites_path
    let movies_website_urls := sortSlice movies_website_urls
    let movies_website_urls := removeDuplicatesFromSlice movies_website_urls
    let fs := removeFile fs movies_websites_path
    let fs := writeByteSliceToFile fs movies_websites_path movies_website_urls
    match probeLoop net valid_movies_website_url movies_website_urls with
    | .error p => (fs, .error p)
    | .ok m => (writeFinalOutput fs m, .ok m)
  else (writeFinalOutput fs valid_movies_website_url, .ok valid_movies_website_url)

/-! ## A sample environment

Used to evaluate the model on concrete inputs. -/

/-- A sample network: `url.Parse` rejects a URL that starts with a colon
("missing protocol scheme") and otherwise yields the host between the scheme
and the trailing slash; only `example.com` and `parked.example` resolve, by a
host lookup; only `https://example.com` answers with status 200. -/
def sampleNet : Net where
  LookupNS := fun _ => false
  LookupCNAME := fun _ => false
  LookupAddr := fun _ => false
  LookupHost := fun d => d = "example.com".toList || d = "parked.example".toList
  LookupMX := fun _ => false
  LookupTXT := fun _ => false
  LookupIP := fun _ => false
  httpGet := fun target => if target = "https://example.com".toList then some 200 else none
  urlParse := fun s =>
    if s.head? = some ':' then .error "missing protocol scheme".toList
    else .ok ⟨website s⟩

/-- A sample file system whose list file has a line that `url.Parse` rejects. -/
def sampleFS : FS :=
  [(movies_websites_path, "https://example.com/\n://example.com\n".toList),
   (readme_modify_me_file_path, "# Sites\n[\x7bREPLACE_CONTENT_WITH_GOLANG\x7d]\nend\n".toList)]

/-! ## Lemmas on maps -/

theorem lookup_mapAssign {V : Type} (m : GoMap V) (k u : GoString) (v : V) :
    List.lookup u (mapAssign m k v) = if k = u then some v else List.lookup u m := by
  induction m with
  | nil =>
    by_cases h : k = u
    · subst h; simp [mapAssign, List.lookup]
    · have h2 : (u == k) = false := by simpa using fun e => h e.symm
      simp [mapAssign, List.lookup, h, h2]
  | cons p rest ih =>
    obtain ⟨k0, v0⟩ := p
    by_cases h0 : k0 = k
    · subst h0
      by_cases h : k0 = u
      · subst h; simp [mapAssign, List.lookup]
      · have h2 : (u == k0) = false := by simpa using fun e => h e.symm
        simp [mapAssign, List.lookup, h, h2]
    · by_cases h : k = u
      · subst h
        have h2 : (k == k0) = false := by simpa using fun e => h0 e.symm
        simp [mapAssign, List.lookup, h0, h2, ih]
      · simp only [mapAssign, h0, if_false, List.lookup, ih, h]

theorem mapIndex_mapAssign {V : Type} (zero : V) (m : GoMap V) (k u : GoString) (v : V) :
    mapIndex zero (mapAssign m k v) u = if k = u then v else mapIndex zero m u := by
  unfold mapIndex
  rw [lookup_mapAssign]
  split <;> rfl

/-! ## Lemmas on the removal of duplicates -/

theorem removeDuplicatesLoop_spec (rest : List GoString) :
    ∀ (check : GoMap Bool) (out : List GoString),
      (∀ s, mapIndex false check s = true ↔ s ∈ out) →
      ∃ t, removeDuplicatesLoop check out rest = out ++ t ∧ t.Sublist rest ∧
        (out.Nodup → (out ++ t).Nodup) ∧
        (∀ s, s ∈ out ++ t ↔ s ∈ out ∨ s ∈ rest) ∧
        ((out ++ rest).Nodup → t = rest) := by
  induction rest with
  | nil =>
    intro check out _
    exact ⟨[], by simp [removeDuplicatesLoop]⟩
  | cons c rest ih =>
    intro check out hI
    by_cases hc : mapIndex false check c = true
    · have hmem : c ∈ out := (hI c).1 hc
      obtain ⟨t, h1, h2, h3, h4, h5⟩ := ih check out hI
      refine ⟨t, ?_, h2.cons c, h3, ?_, ?_⟩
      · simp [removeDuplicatesLoop, hc, h1]
      · intro s
        rw [h4 s]
        constructor
        · rintro (h | h)
          · exact Or.inl h
          · exact Or.inr (List.mem_cons_of_mem _ h)
        · rintro (h | h)
          · exact Or.inl h
          · rcases List.mem_cons.1 h with h | h
            · exact Or.inl (h ▸ hmem)
            · exact Or.inr h
      · intro hnd
        exfalso
        have := (List.nodup_append.1 hnd).2.2
        exact this hmem (List.mem_cons_self _ _)
    · have hnot : c ∉ out := fun h => hc ((hI c).2 h)
      have hI2 : ∀ s, mapIndex false (mapAssign check c true) s = true ↔ s ∈ out ++ [c] := by
        intro s
        rw [mapIndex_mapAssign]
        by_cases hs : c = s
        · subst hs; simp
        · have hs2 : ¬ s = c := fun e => hs e.symm
          simp [hs, hs2, hI s]
      obtain ⟨t, h1, h2, h3, h4, h5⟩ := ih (mapAssign check c true) (out ++ [c]) hI2
      refine ⟨c :: t, ?_, h2.cons₂ c, ?_, ?_, ?_⟩
      · have hc2 : mapIndex false check c = false := by simpa using hc
        simp [removeDuplicatesLoop, hc2, h1]
      · intro hnd
        have : (out ++ [c]).Nodup := by
          rw [List.nodup_append]
          refine ⟨hnd, List.nodup_singleton c, ?_⟩
          intro a ha hb
          rw [List.mem_singleton] at hb
          exact hnot (hb ▸ ha)
        simpa using h3 this
      · intro s
        have := h4 s
        simp only [List.append_assoc, List.singleton_append] at this
        rw [this]
        simp only [List.mem_append, List.mem_singleton, List.mem_cons]
        tauto
      · intro hnd
        have : (out ++ [c] ++ rest).Nodup := by simpa using hnd
        rw [h5 this]

theorem removeDuplicatesFromSlice_spec (slice : List GoString) :
    (removeDuplicatesFromSlice slice).Sublist slice ∧
      (removeDuplicatesFromSlice slice).Nodup ∧
      (∀ s, s ∈ removeDuplicatesFromSlice slice ↔ s ∈ slice) ∧
      (slice.Nodup → removeDuplicatesFromSlice slice = slice) := by
  obtain ⟨t, h1, h2, h3, h4, h5⟩ :=
    removeDuplicatesLoop_spec slice [] [] (by intro s; simp [mapIndex])
  have e : removeDuplicatesFromSlice slice = t := by
    simpa [removeDuplicatesFromSlice] using h1
  rw [e]
  refine ⟨h2, ?_, ?_, ?_⟩
  · simpa using h3 List.nodup_nil
  · intro s; simpa using h4 s
  · intro hnd; exact h5 (by simpa using hnd)

theorem sortSlice_sorted (slice : List GoString) : (sortSlice slice).Sorted (· ≤ ·) :=
  List.sorted_insertionSort _ _

theorem sortSlice_perm (slice : List GoString) : (sortSlice slice).Perm slice :=
  List.perm_insertionSort _ _

theorem count_one_of_nodup {l : List GoString} (hnd : l.Nodup) {s : GoString} (h : s ∈ l) :
    l.count s = 1 := by
  induction l with
  | nil => cases h
  | cons x xs ih =>
    rw [List.nodup_cons] at hnd
    rcases List.mem_cons.1 h with e | h2
    · subst e
      rw [List.count_cons_self, List.count_eq_zero_of_not_mem hnd.1]
    · have hne : x ≠ s := fun e => hnd.1 (e ▸ h2)
      rw [List.count_cons_of_ne hne.symm, ih hnd.2 h2]

/-! ## List cleanup -/

/-- C1: for every list, the cleaned list is sorted in ascending lexicographic
order and holds no string at two distinct positions. -/
theorem clean_sorted_nodup (L : List GoString) :
    (clean L).Sorted (· ≤ ·) ∧ (clean L).Nodup ∧ (clean L).Sorted (· < ·) := by
  have hsub := (removeDuplicatesFromSlice_spec (sortSlice L)).1
  have hnd := (removeDuplicatesFromSlice_spec (sortSlice L)).2.1
  have hs : (clean L).Sorted (· ≤ ·) := (sortSlice_sorted L).sublist hsub
  refine ⟨hs, hnd, ?_⟩
  exact (List.Sorted.lt_of_le hs hnd)

theorem mem_clean (L : List GoString) (s : GoString) : s ∈ clean L ↔ s ∈ L := by
  unfold clean
  rw [(removeDuplicatesFromSlice_spec (sortSlice L)).2.2.1 s]
  exact (sortSlice_perm L).mem_iff

theorem clean_nodup (L : List GoString) : (clean L).Nodup :=
  (removeDuplicatesFromSlice_spec (sortSlice L)).2.1

theorem clean_sorted (L : List GoString) : (clean L).Sorted (· ≤ ·) :=
  (sortSlice_sorted L).sublist (removeDuplicatesFromSlice_spec (sortSlice L)).1

/-- C2: the cleaned list keeps exactly one instance of each distinct string of
the input and nothing else; `["b","a","a","c"]` is cleaned to `["a","b","c"]`. -/
theorem clean_keeps_one_of_each (L : List GoString) (s : GoString) :
    (s ∈ clean L ↔ s ∈ L) ∧ (clean L).count s = (if s ∈ L then 1 else 0) ∧
      clean ["b".toList, "a".toList, "a".toList, "c".toList]
        = ["a".toList, "b".toList, "c".toList] := by
  have hmem : s ∈ clean L ↔ s ∈ L := mem_clean L s
  have hnd : (clean L).Nodup := clean_nodup L
  refine ⟨hmem, ?_, by decide⟩
  by_cases h : s ∈ L
  · rw [if_pos h]
    exact count_one_of_nodup hnd (hmem.2 h)
  · rw [if_neg h]
    exact List.count_eq_zero_of_not_mem (fun h2 => h (hmem.1 h2))

/-- C3: a list that is sorted ascending and free of duplicates is left unchanged
by the cleanup, and cleaning a cleaned list changes nothing. -/
theorem clean_idempotent (L M : List GoString) (hs : L.Sorted (· ≤ ·)) (hn : L.Nodup) :
    clean L = L ∧ clean (clean M) = clean M := by
  have key : ∀ X : List GoString, X.Sorted (· ≤ ·) → X.Nodup → clean X = X := by
    intro X hX hXn
    unfold clean sortSlice
    rw [List.Sorted.insertionSort_eq hX]
    exact (removeDuplicatesFromSlice_spec X).2.2.2 hXn
  exact ⟨key L hs hn, key (clean M) (clean_sorted M) (clean_nodup M)⟩

theorem clean_idempotent_witness :
    (["a".toList, "b".toList] : List GoString).Sorted (· ≤ ·) ∧
      (["a".toList, "b".toList] : List GoString).Nodup ∧
      clean ["a".toList, "b".toList] = ["a".toList, "b".toList] ∧
      clean (clean ["b".toList, "a".toList, "a".toList])
        = clean ["b".toList, "a".toList, "a".toList] :=
  ⟨by decide, by decide,
    clean_idempotent ["a".toList, "b".toList] ["b".toList, "a".toList, "a".toList]
      (by decide) (by decide)⟩

/-! ## Domain probing -/

theorem isDomainRegistered_eq_false (net : Net) (d : GoString) :
    isDomainRegistered net d = false ↔
      (net.LookupNS d = false ∧ net.LookupCNAME d = false ∧ net.LookupAddr d = false ∧
        net.LookupHost d = false ∧ net.LookupMX d = false ∧ net.LookupTXT d = false ∧
        net.LookupIP d = false) := by
  unfold isDomainRegistered
  cases net.LookupNS d <;> cases net.LookupCNAME d <;> cases net.LookupAddr d <;>
    cases net.LookupHost d <;> cases net.LookupMX d <;> cases net.LookupTXT d <;>
    cases net.LookupIP d <;> simp

theorem isDomainRegistered_eq_true (net : Net) (d : GoString) :
    isDomainRegistered net d = true ↔
      (net.LookupNS d = true ∨ net.LookupCNAME d = true ∨ net.LookupAddr d = true ∨
        net.LookupHost d = true ∨ net.LookupMX d = true ∨ net.LookupTXT d = true ∨
        net.LookupIP d = true) := by
  unfold isDomainRegistered
  cases net.LookupNS d <;> cases net.LookupCNAME d <;> cases net.LookupAddr d <;>
    cases net.LookupHost d <;> cases net.LookupMX d <;> cases net.LookupTXT d <;>
    cases net.LookupIP d <;> simp

theorem CheckWebsiteHTTPStatus_eq_true (net : Net) (d : GoString) :
    CheckWebsiteHTTPStatus net d = true ↔
      (net.httpGet ("http://".toList ++ d) = some 200 ∨
        net.httpGet ("https://".toList ++ d) = some 200) := by
  unfold CheckWebsiteHTTPStatus
  simp only [checkProtocols, StatusOK]
  cases h1 : net.httpGet ("http://".toList ++ d) with
  | none =>
    cases h2 : net.httpGet ("https://".toList ++ d) with
    | none => simp
    | some c2 => by_cases e2 : c2 = 200 <;> simp [e2]
  | some c1 =>
    by_cases e1 : c1 = 200
    · simp [e1]
    · cases h2 : net.httpGet ("https://".toList ++ d) with
      | none => simp [e1]
      | some c2 => by_cases e2 : c2 = 200 <;> simp [e1, e2]

/-- The status that one pass of the loop body stores for a URL that parses. -/
theorem probeURL_ok (net : Net) (m : GoMap GoString) (v : GoString) (q : URL)
    (hq : net.urlParse v = .ok q) :
    ∃ s, (∃ m1, probeURL net m v = .ok m1 ∧
          ∀ u, List.lookup u m1 = if v = u then some s else List.lookup u m) ∧
      (s = "No".toList ∨ s = "Maybe".toList ∨ s = "Yes".toList) ∧
      (s = "No".toList ↔ isDomainRegistered net q.Hostname = false) ∧
      (s = "Maybe".toList ↔ (isDomainRegistered net q.Hostname = true ∧
        CheckWebsiteHTTPStatus net q.Hostname = false)) ∧
      (s = "Yes".toList ↔ (isDomainRegistered net q.Hostname = true ∧
        CheckWebsiteHTTPStatus net q.Hostname = true)) := by
  have hd : getDomainFromURL net v = .ok q.Hostname := by
    simp [getDomainFromURL, hq]
  cases hr : isDomainRegistered net q.Hostname with
  | false =>
    refine ⟨"No".toList, ⟨addKeyValueToMap m v "No".toList, ?_, ?_⟩, Or.inl rfl, ?_, ?_, ?_⟩
    · simp only [probeURL, hd, hr]; rfl
    · intro u; exact lookup_mapAssign m v u _
    · simp
    · simp
    · simp
  | true =>
    cases hc : CheckWebsiteHTTPStatus net q.Hostname with
    | false =>
      refine ⟨"Maybe".toList, ⟨addKeyValueToMap m v "Maybe".toList, ?_, ?_⟩, Or.inr (Or.inl rfl), ?_, ?_, ?_⟩
      · simp only [probeURL, hd, hr, hc]; rfl
      · intro u; exact lookup_mapAssign m v u _
      · simp
      · simp
      · simp
    | true =>
      refine ⟨"Yes".toList,
        ⟨addKeyValueToMap (addKeyValueToMap m v "Maybe".toList) v "Yes".toList, ?_, ?_⟩, Or.inr (Or.inr rfl), ?_, ?_, ?_⟩
      · simp only [probeURL, hd, hr, hc]; rfl
      · intro u
        simp only [addKeyValueToMap, lookup_mapAssign]
        by_cases e : v = u <;> simp [e]
      · simp
      · simp
      · simp

theorem probeURL_panics (net : Net) (m : GoMap GoString) (v e : GoString)
    (hv : net.urlParse v = .error e) :
    probeURL net m v = .error .nilPointerDereference := by
  simp [probeURL, getDomainFromURL, hv]

theorem probeLoop_lookup (net : Net) (u : GoString) (p : URL)
    (hp : net.urlParse u = .ok p) (Q : URL → GoString → Prop)
    (hQ : ∀ m v q, net.urlParse v = .ok q → ∃ s, (∃ m1, probeURL net m v = .ok m1 ∧
      ∀ w, List.lookup w m1 = if v = w then some s else List.lookup w m) ∧ Q q s) :
    ∀ (L : List GoString) (m0 : GoMap GoString),
      (∀ v ∈ L, ∃ q, net.urlParse v = .ok q) →
      (u ∈ L ∨ ∃ s, List.lookup u m0 = some s ∧ Q p s) →
      ∃ m s, probeLoop net m0 L = .ok m ∧ List.lookup u m = some s ∧ Q p s := by
  intro L
  induction L with
  | nil =>
    intro m0 _ h
    rcases h with h | ⟨s, hs, hq⟩
    · cases h
    · exact ⟨m0, s, rfl, hs, hq⟩
  | cons v rest ih =>
    intro m0 hL h
    obtain ⟨q, hq⟩ := hL v (List.mem_cons_self _ _)
    obtain ⟨s, ⟨m1, hm1, hlk⟩, hs⟩ := hQ m0 v q hq
    have hloop : probeLoop net m0 (v :: rest) = probeLoop net m1 rest := by
      simp [probeLoop, hm1]
    rw [hloop]
    apply ih m1 (fun w hw => hL w (List.mem_cons_of_mem _ hw))
    by_cases e : v = u
    · subst e
      have hqp : q = p := by
        rw [hq] at hp
        exact Except.ok.inj hp
      subst hqp
      exact Or.inr ⟨s, by simp [hlk], hs⟩
    · rcases h with h | ⟨s0, hs0, hq0⟩
      · rcases List.mem_cons.1 h with h | h
        · exact absurd h.symm e
        · exact Or.inl h
      · exact Or.inr ⟨s0, by simp [hlk, e, hs0], hq0⟩

theorem probeLoop_panics (net : Net) (u e : GoString) (he : net.urlParse u = .error e) :
    ∀ (L : List GoString) (m0 : GoMap GoString), u ∈ L →
      probeLoop net m0 L = .error .nilPointerDereference := by
  intro L
  induction L with
  | nil => intro _ h; cases h
  | cons v rest ih =>
    intro m0 h
    cases hr : probeURL net m0 v with
    | error p =>
      cases p
      simp [probeLoop, hr]
    | ok m1 =>
      have hne : u ≠ v := by
        intro e2
        subst e2
        rw [probeURL_panics net m0 u e he] at hr
        cases hr
      have hmem : u ∈ rest := by
        rcases List.mem_cons.1 h with h | h
        · exact absurd h hne
        · exact h
      simp [probeLoop, hr, ih m1 hmem]

/-- C4: when every URL of the list parses, the loop completes and the status it
leaves for a URL of the list is `No` exactly when all seven lookups on the
hostname fail, `Maybe` exactly when a lookup succeeds and neither GET returns
200, `Yes` exactly when a lookup succeeds and one of the two GETs returns 200. -/
theorem probe_status_rule (net : Net) (m0 : GoMap GoString) (L : List GoString)
    (u : GoString) (p : URL) (hL : ∀ v ∈ L, ∃ q, net.urlParse v = .ok q) (hu : u ∈ L)
    (hp : net.urlParse u = .ok p) :
    ∃ m s, probeLoop net m0 L = .ok m ∧ List.lookup u m = some s ∧
      (s = "No".toList ↔
        (net.LookupNS p.Hostname = false ∧ net.LookupCNAME p.Hostname = false ∧
          net.LookupAddr p.Hostname = false ∧ net.LookupHost p.Hostname = false ∧
          net.LookupMX p.Hostname = false ∧ net.LookupTXT p.Hostname = false ∧
          net.LookupIP p.Hostname = false)) ∧
      (s = "Maybe".toList ↔
        ((net.LookupNS p.Hostname = true ∨ net.LookupCNAME p.Hostname = true ∨
          net.LookupAddr p.Hostname = true ∨ net.LookupHost p.Hostname = true ∨
          net.LookupMX p.Hostname = true ∨ net.LookupTXT p.Hostname = true ∨
          net.LookupIP p.Hostname = true) ∧
          net.httpGet ("http://".toList ++ p.Hostname) ≠ some 200 ∧
          net.httpGet ("https://".toList ++ p.Hostname) ≠ some 200)) ∧
      (s = "Yes".toList ↔
        ((net.LookupNS p.Hostname = true ∨ net.LookupCNAME p.Hostname = true ∨
          net.LookupAddr p.Hostname = true ∨ net.LookupHost p.Hostname = true ∨
          net.LookupMX p.Hostname = true ∨ net.LookupTXT p.Hostname = true ∨
          net.LookupIP p.Hostname = true) ∧
          (net.httpGet ("http://".toList ++ p.Hostname) = some 200 ∨
            net.httpGet ("https://".toList ++ p.Hostname) = some 200))) := by
  have key := probeLoop_lookup net u p hp
    (fun q s => (s = "No".toList ↔ isDomainRegistered net q.Hostname = false) ∧
      (s = "Maybe".toList ↔ (isDomainRegistered net q.Hostname = true ∧
        CheckWebsiteHTTPStatus net q.Hostname = false)) ∧
      (s = "Yes".toList ↔ (isDomainRegistered net q.Hostname = true ∧
        CheckWebsiteHTTPStatus net q.Hostname = true)))
    (fun m v q hq => by
      obtain ⟨s, h1, _, h2⟩ := probeURL_ok net m v q hq
      exact ⟨s, h1, h2⟩)
    L m0 hL (Or.inl hu)
  obtain ⟨m, s, hm, hs, hNo, hMaybe, hYes⟩ := key
  refine ⟨m, s, hm, hs, ?_, ?_, ?_⟩
  · rw [hNo, isDomainRegistered_eq_false]
  · rw [hMaybe, isDomainRegistered_eq_true, ← Bool.not_eq_true,
      CheckWebsiteHTTPStatus_eq_true, not_or]
  · rw [hYes, isDomainRegistered_eq_true, CheckWebsiteHTTPStatus_eq_true]

/-! ## The result mapping on lists that parse -/

theorem mem_mapKeys_mapAssign (m : GoMap GoString) (key k v : GoString) :
    k ∈ mapKeys (mapAssign m key v) ↔ k = key ∨ k ∈ mapKeys m := by
  induction m with
  | nil => simp [mapAssign, mapKeys]
  | cons p rest ih =>
    obtain ⟨k0, v0⟩ := p
    by_cases h0 : k0 = key
    · subst h0
      simp [mapAssign, mapKeys]
    · have ih2 : k ∈ List.map Prod.fst (mapAssign rest key v) ↔
          k = key ∨ k ∈ List.map Prod.fst rest := ih
      simp only [mapAssign, h0, if_false, mapKeys, List.map_cons, List.mem_cons, ih2]
      tauto

theorem nodup_mapKeys_mapAssign (m : GoMap GoString) (key v : GoString)
    (h : (mapKeys m).Nodup) : (mapKeys (mapAssign m key v)).Nodup := by
  induction m with
  | nil => simp [mapAssign, mapKeys]
  | cons p rest ih =>
    obtain ⟨k0, v0⟩ := p
    have h2 : k0 ∉ mapKeys rest ∧ (mapKeys rest).Nodup := by
      simpa [mapKeys] using h
    by_cases h0 : k0 = key
    · subst h0
      simpa [mapAssign, mapKeys] using h
    · have hmem : k0 ∉ mapKeys (mapAssign rest key v) := by
        rw [mem_mapKeys_mapAssign]
        rintro (e | e)
        · exact h0 e
        · exact h2.1 e
      have ih2 := ih h2.2
      simp only [mapAssign, h0, if_false]
      exact List.nodup_cons.2 ⟨hmem, ih2⟩

/-- On a list whose URLs all parse, the loop started with the empty mapping
completes; the keys of the mapping are then pairwise distinct and are exactly
the URLs of the list, and every stored value is `Yes`, `Maybe` or `No`. -/
theorem probeLoop_total (net : Net) :
    ∀ (L : List GoString) (m0 : GoMap GoString),
      (∀ v ∈ L, ∃ q, net.urlParse v = .ok q) →
      ∃ m, probeLoop net m0 L = .ok m ∧
        ((mapKeys m0).Nodup → (mapKeys m).Nodup) ∧
        (∀ k, k ∈ mapKeys m ↔ k ∈ L ∨ k ∈ mapKeys m0) ∧
        (∀ k s, List.lookup k m = some s →
          (s = "Yes".toList ∨ s = "Maybe".toList ∨ s = "No".toList) ∨
            List.lookup k m0 = some s) := by
  intro L
  induction L with
  | nil =>
    intro m0 _
    exact ⟨m0, rfl, id, by simp, fun k s h => Or.inr h⟩
  | cons v rest ih =>
    intro m0 hL
    obtain ⟨q, hq⟩ := hL v (List.mem_cons_self _ _)
    have hd : getDomainFromURL net v = .ok q.Hostname := by
      simp [getDomainFromURL, hq]
    have hstep : ∃ m1, probeURL net m0 v = .ok m1 ∧
        ((mapKeys m0).Nodup → (mapKeys m1).Nodup) ∧
        (∀ k, k ∈ mapKeys m1 ↔ k = v ∨ k ∈ mapKeys m0) ∧
        (∀ k s, List.lookup k m1 = some s →
          (s = "Yes".toList ∨ s = "Maybe".toList ∨ s = "No".toList) ∨
            List.lookup k m0 = some s) := by
      cases hr : isDomainRegistered net q.Hostname with
      | false =>
        refine ⟨addKeyValueToMap m0 v "No".toList, ?_, ?_, ?_, ?_⟩
        · simp only [probeURL, hd, hr]; rfl
        · exact nodup_mapKeys_mapAssign m0 v _
        · exact fun k => mem_mapKeys_mapAssign m0 v k _
        · intro k s hs
          simp only [addKeyValueToMap, lookup_mapAssign] at hs
          by_cases e : v = k
          · rw [if_pos e] at hs
            exact Or.inl (Or.inr (Or.inr (Option.some.inj hs).symm))
          · rw [if_neg e] at hs
            exact Or.inr hs
      | true =>
        cases hc : CheckWebsiteHTTPStatus net q.Hostname with
        | false =>
          refine ⟨addKeyValueToMap m0 v "Maybe".toList, ?_, ?_, ?_, ?_⟩
          · simp only [probeURL, hd, hr, hc]; rfl
          · exact nodup_mapKeys_mapAssign m0 v _
          · exact fun k => mem_mapKeys_mapAssign m0 v k _
          · intro k s hs
            simp only [addKeyValueToMap, lookup_mapAssign] at hs
            by_cases e : v = k
            · rw [if_pos e] at hs
              exact Or.inl (Or.inr (Or.inl (Option.some.inj hs).symm))
            · rw [if_neg e] at hs
              exact Or.inr hs
        | true =>
          refine ⟨addKeyValueToMap (addKeyValueToMap m0 v "Maybe".toList) v "Yes".toList,
            ?_, ?_, ?_, ?_⟩
          · simp only [probeURL, hd, hr, hc]; rfl
          · exact fun h => nodup_mapKeys_mapAssign _ v _ (nodup_mapKeys_mapAssign m0 v _ h)
          · intro k
            simp only [addKeyValueToMap, mem_mapKeys_mapAssign]
            tauto
          · intro k s hs
            simp only [addKeyValueToMap, lookup_mapAssign] at hs
            by_cases e : v = k
            · rw [if_pos e] at hs
              exact Or.inl (Or.inl (Option.some.inj hs).symm)
            · rw [if_neg e, if_neg e] at hs
              exact Or.inr hs
    obtain ⟨m1, hm1, hnd1, hk1, hv1⟩ := hstep
    obtain ⟨m, hm, hnd, hk, hv⟩ := ih m1 (fun w hw => hL w (List.mem_cons_of_mem _ hw))
    refine ⟨m, ?_, fun h => hnd (hnd1 h), ?_, ?_⟩
    · simp [probeLoop, hm1, hm]
    · intro k
      rw [hk, hk1, List.mem_cons]
      tauto
    · intro k s hs
      rcases hv k s hs with h | h
      · exact Or.inl h
      · exact hv1 k s h

theorem lookup_writeFinalOutput (fs : FS) (m : GoMap GoString) (path : GoString)
    (h : readme_file_path ≠ path) :
    List.lookup path (writeFinalOutput fs m) = List.lookup path fs := by
  simp [writeFinalOutput, findAndReplaceInFile, lookup_mapAssign, h]

/-- C5, on the failing input: when a line of the list file is a URL that
`url.Parse` rejects, the run of `main` ends in a panic inside the probe loop and
leaves no completed result mapping. -/
theorem main_panics_on_unparsable_url (net : Net) (fs : FS) (u e : GoString)
    (hu : u ∈ readAppendLineByLine fs movies_websites_path)
    (he : net.urlParse u = .error e) :
    (main net fs).2 = .error .nilPointerDereference := by
  have hex : fileExists fs movies_websites_path = true := by
    unfold readAppendLineByLine at hu
    unfold fileExists
    cases h : List.lookup movies_websites_path fs with
    | none => rw [h] at hu; cases hu
    | some c => rfl
  have hmem : u ∈ clean (readAppendLineByLine fs movies_websites_path) :=
    (mem_clean _ u).2 hu
  have hp := probeLoop_panics net u e he _ [] hmem
  unfold clean at hp
  simp only [main, hex, if_true, hp]

theorem main_panics_on_unparsable_url_witness :
    "://example.com".toList ∈ readAppendLineByLine sampleFS movies_websites_path ∧
      sampleNet.urlParse "://example.com".toList = .error "missing protocol scheme".toList ∧
      (main sampleNet sampleFS).2 = .error .nilPointerDereference :=
  ⟨by decide, rfl,
    main_panics_on_unparsable_url sampleNet sampleFS "://example.com".toList
      "missing protocol scheme".toList (by decide) rfl⟩

/-- C8, on the failing input: when `url.Parse` fails, `getDomainFromURL` does not
return the empty string; it panics on the nil `*URL`. -/
theorem getDomainFromURL_panics (net : Net) (givenURL e : GoString)
    (he : net.urlParse givenURL = .error e) :
    getDomainFromURL net givenURL = .error .nilPointerDereference ∧
      getDomainFromURL net givenURL ≠ .ok [] := by
  have h : getDomainFromURL net givenURL = .error .nilPointerDereference := by
    simp [getDomainFromURL, he]
  refine ⟨h, ?_⟩
  rw [h]
  intro h2
  cases h2

theorem getDomainFromURL_panics_witness :
    sampleNet.urlParse "://example.com".toList = .error "missing protocol scheme".toList ∧
      getDomainFromURL sampleNet "://example.com".toList = .error .nilPointerDereference ∧
      getDomainFromURL sampleNet "://example.com".toList ≠ .ok [] :=
  ⟨rfl,
    getDomainFromURL_panics sampleNet "://example.com".toList
      "missing protocol scheme".toList rfl⟩

theorem probe_status_rule_witness :
    "https://example.com/".toList ∈
        ["http://parked.example".toList, "https://example.com/".toList] ∧
      sampleNet.urlParse "https://example.com/".toList = .ok ⟨"example.com".toList⟩ ∧
      ∃ m, probeLoop sampleNet []
          ["http://parked.example".toList, "https://example.com/".toList] = .ok m ∧
        List.lookup "https://example.com/".toList m = some "Yes".toList := by
  refine ⟨by decide, rfl, ?_⟩
  obtain ⟨m, s, hm, hs, _, _, hYes⟩ :=
    probe_status_rule sampleNet []
      ["http://parked.example".toList, "https://example.com/".toList]
      "https://example.com/".toList ⟨"example.com".toList⟩
      (by
        intro v hv
        simp only [List.mem_cons, List.mem_singleton, List.not_mem_nil, or_false] at hv
        rcases hv with rfl | rfl
        · exact ⟨⟨"parked.example".toList⟩, rfl⟩
        · exact ⟨⟨"example.com".toList⟩, rfl⟩)
      (by decide) rfl
  have hyes : s = "Yes".toList :=
    hYes.2 ⟨Or.inr (Or.inr (Or.inr (Or.inl (by decide)))), Or.inr (by decide)⟩
  exact ⟨m, hm, by rw [hs, hyes]⟩

/-- C6, on the failing input: from `http://example.com//` the label loses both
trailing slashes, and from `http://https://example.com` both scheme prefixes;
the two labels of the specification come out as stated. -/
theorem website_strips_twice :
    website "http://example.com//".toList = "example.com".toList ∧
      website "http://https://example.com".toList = "example.com".toList ∧
      website "https://example.com/".toList = "example.com".toList ∧
      website "http://example.com".toList = "example.com".toList := by
  decide

/-! ## Rewriting the list file -/

theorem mem_dropCR {c : Char} {cur : GoString} (h : c ∈ dropCR cur) : c ∈ cur := by
  unfold dropCR at h
  split at h
  · exact List.mem_of_mem_dropLast h
  · exact h

theorem scanLines_no_newline (maxTok : Nat) (s : GoString) :
    ∀ cur : GoString, '\n' ∉ cur → ∀ l ∈ scanLines maxTok cur s, '\n' ∉ l := by
  induction s with
  | nil =>
    intro cur hcur l hl
    unfold scanLines at hl
    split at hl
    · cases hl
    · rw [List.mem_singleton] at hl
      subst hl
      exact fun h => hcur (mem_dropCR h)
  | cons c cs ih =>
    intro cur hcur l hl
    unfold scanLines at hl
    by_cases hc : c = '\n'
    · rw [if_pos hc] at hl
      rcases List.mem_cons.1 hl with h | h
      · subst h
        exact fun h => hcur (mem_dropCR h)
      · exact ih [] (List.not_mem_nil _) l h
    · rw [if_neg hc] at hl
      split at hl
      · cases hl
      · refine ih (cur ++ [c]) ?_ l hl
        intro h
        rcases List.mem_append.1 h with h | h
        · exact hcur h
        · rw [List.mem_singleton] at h
          exact hc h.symm

theorem scanLines_length_le_one (maxTok : Nat) (s : GoString) :
    ∀ cur : GoString, '\n' ∉ s → (scanLines maxTok cur s).length ≤ 1 := by
  induction s with
  | nil =>
    intro cur _
    unfold scanLines
    split <;> simp
  | cons c cs ih =>
    intro cur hs
    have hc : c ≠ '\n' := fun e => hs (e ▸ List.mem_cons_self _ _)
    have hcs : '\n' ∉ cs := fun h => hs (List.mem_cons_of_mem _ h)
    unfold scanLines
    rw [if_neg hc]
    split
    · simp
    · exact ih _ hcs

theorem foldl_append_flatten (data : List GoString) :
    ∀ written : GoString,
      data.foldl (fun written str => written ++ str) written = written ++ data.flatten := by
  induction data with
  | nil => intro written; simp
  | cons d rest ih => intro written; simp [ih]

theorem lookup_list_file_after_main (net : Net) (fs : FS)
    (hex : fileExists fs movies_websites_path = true) :
    List.lookup movies_websites_path (main net fs).1 =
      some (clean (readAppendLineByLine fs movies_websites_path)).flatten := by
  have hw : ∀ data : List GoString,
      List.lookup movies_websites_path
        (writeByteSliceToFile (removeFile fs movies_websites_path) movies_websites_path data)
        = some data.flatten := by
    intro data
    simp [writeByteSliceToFile, lookup_mapAssign, foldl_append_flatten]
  have hne : readme_file_path ≠ movies_websites_path := by decide
  unfold main
  simp only [hex, if_true]
  split
  · exact hw _
  · rw [lookup_writeFinalOutput _ _ _ hne]
    exact hw _

/-- C10: the list file is rewritten as the cleaned entries one after the other,
with nothing between or after them; the rewritten file has no line break, and
reading it back line by line gives at most one entry. -/
theorem cleaner_writes_without_terminators (net : Net) (fs : FS) (content : GoString)
    (h : List.lookup movies_websites_path fs = some content) :
    List.lookup movies_websites_path (main net fs).1 =
        some (clean (readAppendLineByLine fs movies_websites_path)).flatten ∧
      '\n' ∉ (clean (readAppendLineByLine fs movies_websites_path)).flatten ∧
      (readAppendLineByLine (main net fs).1 movies_websites_path).length ≤ 1 := by
  have hex : fileExists fs movies_websites_path = true := by
    simp [fileExists, h]
  have hfile := lookup_list_file_after_main net fs hex
  have hnl : '\n' ∉ (clean (readAppendLineByLine fs movies_websites_path)).flatten := by
    intro hmem
    obtain ⟨l, hl, hc⟩ := List.mem_flatten.1 hmem
    have hl2 : l ∈ readAppendLineByLine fs movies_websites_path := (mem_clean _ l).1 hl
    unfold readAppendLineByLine at hl2
    rw [h] at hl2
    exact scanLines_no_newline _ content [] (List.not_mem_nil _) l hl2 hc
  refine ⟨hfile, hnl, ?_⟩
  unfold readAppendLineByLine
  rw [hfile]
  exact scanLines_length_le_one _ _ [] hnl

theorem cleaner_writes_without_terminators_witness :
    List.lookup movies_websites_path sampleFS
        = some "https://example.com/\n://example.com\n".toList ∧
      (List.lookup movies_websites_path (main sampleNet sampleFS).1 =
          some (clean (readAppendLineByLine sampleFS movies_websites_path)).flatten ∧
        '\n' ∉ (clean (readAppendLineByLine sampleFS movies_websites_path)).flatten ∧
        (readAppendLineByLine (main sampleNet sampleFS).1 movies_websites_path).length ≤ 1) ∧
      (clean (readAppendLineByLine sampleFS movies_websites_path)).flatten
        = "://example.comhttps://example.com/".toList :=
  ⟨by decide,
    cleaner_writes_without_terminators sampleNet sampleFS
      "https://example.com/\n://example.com\n".toList (by decide),
    by decide⟩

/-! ## The rendered table -/

theorem sprintf_row (a b c : GoString) :
    Sprintf rowFormat [a, b, c] =
      "| [".toList ++ a ++ "](".toList ++ b ++ ") | ".toList ++
        (c ++ List.replicate (12 - c.length) ' ') ++ " |\n".toList := by
  have hf : rowFormat = ['|', ' ', '[', '%', 's', ']', '(', '%', 's', ')', ' ', '|', ' ',
      '%', '-', '1', '2', 's', ' ', '|', '\n'] := by decide
  rw [hf]
  simp [Sprintf, sprintfAux, padString, Char.isDigit]

theorem writeRows_eq (pairs : List (GoString × GoString)) :
    ∀ output : GoString, writeRows output pairs =
      output ++ pairs.flatMap (fun pair => Sprintf rowFormat [website pair.1, pair.1, pair.2]) := by
  induction pairs with
  | nil => intro output; simp [writeRows]
  | cons p rest ih =>
    intro output
    obtain ⟨url, availability⟩ := p
    simp [writeRows, ih]

theorem sorted_keys_unique (keys ks : List GoString) (hn : keys.Nodup)
    (hks : ks.Sorted (· < ·)) (hmem : ∀ k, k ∈ ks ↔ k ∈ keys) :
    keys.insertionSort (· ≤ ·) = ks := by
  have hperm : (keys.insertionSort (· ≤ ·)).Perm ks := by
    refine (List.perm_ext_iff_of_nodup ?_ hks.nodup).2 ?_
    · exact (List.perm_insertionSort _ keys).nodup_iff.2 hn
    · intro k
      rw [(List.perm_insertionSort _ keys).mem_iff, hmem]
  exact List.eq_of_perm_of_sorted hperm (List.sorted_insertionSort _ keys) hks.le_of_lt

theorem tableText_eq (m : GoMap GoString) :
    tableText m = "| Website| Availability |\n".toList ++ "|--------|--------------|\n".toList ++
      ((mapKeys m).insertionSort (· ≤ ·)).flatMap (fun url =>
        "| [".toList ++ website url ++ "](".toList ++ url ++ ") | ".toList ++
          (mapIndex [] m url ++ List.replicate (12 - (mapIndex [] m url).length) ' ') ++
          " |\n".toList) := by
  unfold tableText sortMapByKeys
  simp only [writeRows_eq, List.flatMap_map, sprintf_row]

/-- C9: the table is the two header lines followed by one row per key of the
mapping, in strictly ascending order of the keys; the row of a key is
`| [label](url) | status |` and a newline, the status being the stored one
followed by spaces up to a width of 12; the empty mapping gives no row. -/
theorem table_layout (m : GoMap GoString) (ks : List GoString) (hm : (mapKeys m).Nodup)
    (hks : ks.Sorted (· < ·)) (hmem : ∀ k, k ∈ ks ↔ k ∈ mapKeys m) :
    tableText m = "| Website| Availability |\n".toList ++ "|--------|--------------|\n".toList ++
        ks.flatMap (fun url =>
          "| [".toList ++ website url ++ "](".toList ++ url ++ ") | ".toList ++
            (mapIndex [] m url ++ List.replicate (12 - (mapIndex [] m url).length) ' ') ++
            " |\n".toList) ∧
      ks.length = m.length ∧
      tableText [] = "| Website| Availability |\n".toList ++ "|--------|--------------|\n".toList := by
  have hk := sorted_keys_unique (mapKeys m) ks hm hks hmem
  refine ⟨?_, ?_, by decide⟩
  · rw [tableText_eq, hk]
  · rw [← hk, List.length_insertionSort]
    simp [mapKeys]

theorem table_layout_witness :
    (mapKeys [("b".toList, "No".toList), ("a".toList, "Yes".toList)]).Nodup ∧
      (["a".toList, "b".toList] : List GoString).Sorted (· < ·) ∧
      tableText [("b".toList, "No".toList), ("a".toList, "Yes".toList)] =
        ("| Website| Availability |\n|--------|--------------|\n"
          ++ "| [a](a) | Yes          |\n| [b](b) | No           |\n").toList := by
  refine ⟨by decide, by decide, ?_⟩
  have h := (table_layout [("b".toList, "No".toList), ("a".toList, "Yes".toList)]
    ["a".toList, "b".toList] (by decide) (by decide)
    (by intro k; simp [mapKeys, or_comm])).1
  rw [h]
  decide

/-! ## Template substitution -/

theorem occurrences_cons (pat : GoString) (c : Char) (cs : GoString) :
    occurrences pat (c :: cs)
      = (if pat.isPrefixOf (c :: cs) then 1 else 0) + occurrences pat cs := rfl

theorem replaceScan_zero_cons (old new : GoString) (c : Char) (cs : GoString) :
    replaceScan old new 0 (c :: cs)
      = if old.isPrefixOf (c :: cs) then new ++ replaceScan old new (old.length - 1) cs
        else c :: replaceScan old new 0 cs := rfl

theorem occurrences_le_append (pat y : GoString) :
    ∀ x : GoString, occurrences pat y ≤ occurrences pat (x ++ y) := by
  intro x
  induction x with
  | nil => simp
  | cons c x ih =>
    rw [List.cons_append, occurrences_cons]
    omega

theorem replaceScan_skip (old new y : GoString) :
    ∀ x : GoString, replaceScan old new x.length (x ++ y) = replaceScan old new 0 y := by
  intro x
  induction x with
  | nil => simp
  | cons c x ih => simpa [replaceScan] using ih

theorem replaceScan_keep (old new rest : GoString) :
    ∀ pre : GoString, occurrences old (pre ++ rest) = occurrences old rest →
      replaceScan old new 0 (pre ++ rest) = pre ++ replaceScan old new 0 rest := by
  intro pre
  induction pre with
  | nil => intro _; simp
  | cons c pre ih =>
    intro h
    have hle := occurrences_le_append old rest pre
    rw [List.cons_append, occurrences_cons] at h
    by_cases hp : old.isPrefixOf (c :: (pre ++ rest)) = true
    · rw [if_pos hp] at h
      omega
    · rw [if_neg hp] at h
      have h2 : occurrences old (pre ++ rest) = occurrences old rest := by omega
      rw [List.cons_append, replaceScan_zero_cons, if_neg hp, ih h2, List.cons_append]

theorem occurrences_nil_of_ne (pat : GoString) (hne : pat ≠ []) : occurrences pat [] = 0 := by
  cases pat with
  | nil => exact absurd rfl hne
  | cons a p => simp [occurrences, List.isPrefixOf]

theorem isPrefixOf_self_append (pat post : GoString) : pat.isPrefixOf (pat ++ post) = true := by
  induction pat with
  | nil => simp [List.isPrefixOf]
  | cons a p ih => simp [List.isPrefixOf]

theorem ReplaceAll_once (old new pre post : GoString) (hne : old ≠ [])
    (h1 : occurrences old (pre ++ old ++ post) = 1) :
    ReplaceAll (pre ++ old ++ post) old new = pre ++ new ++ post := by
  unfold ReplaceAll
  by_cases hon : old = new
  · rw [if_pos hon, hon]
  · rw [if_neg hon, if_neg hne]
    cases hold : old with
    | nil => exact absurd hold hne
    | cons a p =>
      rw [hold] at h1
      have hpre : (a :: p).isPrefixOf ((a :: p) ++ post) = true := isPrefixOf_self_append _ _
      have hocc : occurrences (a :: p) ((a :: p) ++ post)
          = 1 + occurrences (a :: p) (p ++ post) := by
        have : (a :: p) ++ post = a :: (p ++ post) := rfl
        rw [this] at hpre ⊢
        rw [occurrences_cons, if_pos hpre]
      have hle1 := occurrences_le_append (a :: p) ((a :: p) ++ post) pre
      have hle2 := occurrences_le_append (a :: p) post p
      rw [List.append_assoc] at h1
      have hA : occurrences (a :: p) (pre ++ ((a :: p) ++ post))
          = occurrences (a :: p) ((a :: p) ++ post) := by omega
      have hB : occurrences (a :: p) post = 0 := by omega
      have hpost : replaceScan (a :: p) new 0 post = post := by
        have h0 : occurrences (a :: p) (post ++ []) = occurrences (a :: p) [] := by
          rw [List.append_nil, hB, occurrences_nil_of_ne _ (List.cons_ne_nil a p)]
        have := replaceScan_keep (a :: p) new [] post h0
        simpa [replaceScan] using this
      rw [List.append_assoc, replaceScan_keep _ _ _ pre hA]
      have hstep : replaceScan (a :: p) new 0 ((a :: p) ++ post)
          = new ++ replaceScan (a :: p) new p.length (p ++ post) := by
        have : (a :: p) ++ post = a :: (p ++ post) := rfl
        rw [this] at hpre ⊢
        rw [replaceScan_zero_cons, if_pos hpre, List.length_cons, Nat.add_sub_cancel]
      rw [hstep, replaceScan_skip, hpost, List.append_assoc]

theorem occurrences_eq_zero_iff (pat : GoString) :
    ∀ s : GoString, occurrences pat s = 0 ↔ ¬ pat <:+: s := by
  intro s
  induction s with
  | nil =>
    cases pat with
    | nil => simp [occurrences, List.isPrefixOf]
    | cons a p => simp [occurrences, List.isPrefixOf]
  | cons c cs ih =>
    rw [occurrences_cons, List.infix_cons_iff, not_or, ← ih]
    by_cases hp : pat.isPrefixOf (c :: cs) = true
    · have hp2 : pat <+: c :: cs := List.isPrefixOf_iff_prefix.1 hp
      simp [hp, hp2]
    · have hp2 : ¬ pat <+: c :: cs := fun h => hp ( List.isPrefixOf_iff_prefix.2 h)
      simp [hp, hp2]

theorem prefix_before_foreign (c : Char) (y : GoString) :
    ∀ (X pat : GoString), c ∉ pat → pat <+: X ++ c :: y → pat <+: X := by
  intro X
  induction X with
  | nil =>
    intro pat hc h
    cases pat with
    | nil => exact List.nil_prefix
    | cons a p =>
      rw [List.nil_append, List.cons_prefix_cons] at h
      exact absurd (h.1 ▸ List.mem_cons_self a p) hc
  | cons b X ih =>
    intro pat hc h
    cases pat with
    | nil => exact List.nil_prefix
    | cons a p =>
      rw [List.cons_append, List.cons_prefix_cons] at h
      rw [List.cons_prefix_cons]
      exact ⟨h.1, ih p (fun hm => hc (List.mem_cons_of_mem _ hm)) h.2⟩

theorem infix_split_at_foreign (pat y : GoString) (c : Char) (hc : c ∉ pat) :
    ∀ x : GoString, pat <:+: x ++ c :: y → pat <:+: x ∨ pat <:+: y := by
  intro x
  induction x with
  | nil =>
    intro h
    rw [List.nil_append, List.infix_cons_iff] at h
    rcases h with h | h
    · exact Or.inl (prefix_before_foreign c y [] pat hc h).isInfix
    · exact Or.inr h
  | cons a x ih =>
    intro h
    rw [List.cons_append, List.infix_cons_iff] at h
    rcases h with h | h
    · exact Or.inl (prefix_before_foreign c y (a :: x) pat hc h).isInfix
    · rcases ih h with h2 | h2
      · exact Or.inl (List.infix_cons h2)
      · exact Or.inr h2

theorem rows_end_with_newline (m : GoMap GoString) (ks : List GoString) :
    ks.flatMap (fun url =>
        "| [".toList ++ website url ++ "](".toList ++ url ++ ") | ".toList ++
          (mapIndex [] m url ++ List.replicate (12 - (mapIndex [] m url).length) ' ') ++
          " |\n".toList) = [] ∨
      ∃ R, ks.flatMap (fun url =>
        "| [".toList ++ website url ++ "](".toList ++ url ++ ") | ".toList ++
          (mapIndex [] m url ++ List.replicate (12 - (mapIndex [] m url).length) ' ') ++
          " |\n".toList) = R ++ ['\n'] := by
  induction ks with
  | nil => exact Or.inl rfl
  | cons k rest ih =>
    right
    have hrow : (" |\n".toList : GoString) = " |".toList ++ ['\n'] := by decide
    rcases ih with h | ⟨R, h⟩
    · rw [List.flatMap_cons, h, List.append_nil, hrow, ← List.append_assoc]
      exact ⟨_, rfl⟩
    · rw [List.flatMap_cons, h, ← List.append_assoc]
      exact ⟨_, rfl⟩

theorem tableText_shape (m : GoMap GoString) :
    ∃ mid, tableText m = '|' :: (mid ++ ['\n']) := by
  rw [tableText_eq]
  have h1 : ("| Website| Availability |\n".toList : GoString)
      = '|' :: " Website| Availability |\n".toList := by decide
  have h2 : ("|--------|--------------|\n".toList : GoString)
      = "|--------|--------------|".toList ++ ['\n'] := by decide
  rcases rows_end_with_newline m ((mapKeys m).insertionSort (· ≤ ·)) with h | ⟨R, h⟩
  · rw [h, List.append_nil, h1, h2, List.cons_append, ← List.append_assoc]
    exact ⟨_, rfl⟩
  · rw [h, h1, List.cons_append, List.cons_append, ← List.append_assoc]
    exact ⟨_, rfl⟩

theorem occurrences_add_le_append (pat y : GoString) (hne : pat ≠ []) :
    ∀ x : GoString, occurrences pat x + occurrences pat y ≤ occurrences pat (x ++ y) := by
  intro x
  induction x with
  | nil => simp [occurrences_nil_of_ne pat hne]
  | cons c x ih =>
    rw [List.cons_append, occurrences_cons, occurrences_cons]
    by_cases hp : pat.isPrefixOf (c :: x) = true
    · have hp2 : pat.isPrefixOf (c :: (x ++ y)) = true := by
        have h1 : pat <+: c :: x := List.isPrefixOf_iff_prefix.1 hp
        have h2 : pat <+: (c :: x) ++ y := h1.trans ( List.prefix_append _ _)
        exact List.isPrefixOf_iff_prefix.2 h2
      rw [if_pos hp, if_pos hp2]
      omega
    · rw [if_neg hp]
      omega

theorem occurrences_once_parts (pat pre post : GoString) (hne : pat ≠ [])
    (h1 : occurrences pat (pre ++ pat ++ post) = 1) :
    occurrences pat pre = 0 ∧ occurrences pat post = 0 := by
  have hself : 1 ≤ occurrences pat pat := by
    have : pat <:+: pat := List.infix_refl pat
    have h0 := (occurrences_eq_zero_iff pat pat).not.2 (not_not.2 this)
    omega
  have ha := occurrences_add_le_append pat post hne (pre ++ pat)
  have hb := occurrences_add_le_append pat pat hne pre
  omega

/-- C7, as amended: the written text is the template with the table in the place
of the placeholder and everything else unchanged; it is free of the placeholder
exactly when the table is, and the table text occurs in it at least once. -/
theorem template_substitution (fs : FS) (pre post : GoString) (m : GoMap GoString)
    (htpl : List.lookup readme_modify_me_file_path fs = some (pre ++ placeholder ++ post))
    (hone : occurrences placeholder (pre ++ placeholder ++ post) = 1) :
    List.lookup readme_file_path (writeFinalOutput fs m)
        = some (pre ++ tableText m ++ post) ∧
      (occurrences placeholder (pre ++ tableText m ++ post) = 0 ↔
        occurrences placeholder (tableText m) = 0) ∧
      1 ≤ occurrences (tableText m) (pre ++ tableText m ++ post) := by
  have hne : placeholder ≠ [] := by decide
  have hbar : '|' ∉ placeholder := by decide
  have hnl : '\n' ∉ placeholder := by decide
  obtain ⟨hpre, hpost⟩ := occurrences_once_parts placeholder pre post hne hone
  obtain ⟨mid, hT⟩ := tableText_shape m
  have hin : tableText m <:+: pre ++ tableText m ++ post := List.infix_append _ _ _
  refine ⟨?_, ?_, ?_⟩
  · simp only [writeFinalOutput, findAndReplaceInFile, lookup_mapAssign, if_true, htpl,
      Option.getD_some]
    rw [ReplaceAll_once placeholder (tableText m) pre post hne hone]
  · rw [occurrences_eq_zero_iff, occurrences_eq_zero_iff]
    constructor
    · intro h h2
      exact h (h2.trans hin)
    · intro h h2
      rw [hT, List.append_assoc, List.cons_append, List.append_assoc,
        List.singleton_append] at h2
      rcases infix_split_at_foreign placeholder _ '|' hbar pre h2 with h3 | h3
      · exact (occurrences_eq_zero_iff placeholder pre).1 hpre h3
      · rcases infix_split_at_foreign placeholder _ '\n' hnl mid h3 with h4 | h4
        · apply h
          rw [hT]
          exact h4.trans (List.infix_cons (List.infix_append' [] mid ['\n']))
        · exact (occurrences_eq_zero_iff placeholder post).1 hpost h4
  · have h0 := (occurrences_eq_zero_iff (tableText m) (pre ++ tableText m ++ post)).not.2
      (not_not.2 hin)
    omega

theorem template_substitution_witness :
    List.lookup readme_modify_me_file_path sampleFS
        = some ("# Sites\n".toList ++ placeholder ++ "\nend\n".toList) ∧
      occurrences placeholder ("# Sites\n".toList ++ placeholder ++ "\nend\n".toList) = 1 ∧
      List.lookup readme_file_path
          (writeFinalOutput sampleFS [("https://example.com/".toList, "Yes".toList)])
        = some ("# Sites\n| Website| Availability |\n|--------|--------------|\n"
          ++ "| [example.com](https://example.com/) | Yes          |\n\nend\n").toList := by
  refine ⟨by decide, by decide, ?_⟩
  rw [(template_substitution sampleFS "# Sites\n".toList "\nend\n".toList
    [("https://example.com/".toList, "Yes".toList)] (by decide) (by decide)).1]
  decide

set_option maxRecDepth 100000

/-- C7, counterexample: with the one-placeholder template `[{...}]` and a result
mapping whose URL key is the placeholder text, the written text holds the
placeholder twice; with the header lines followed by the placeholder as
template and the empty mapping, the written text holds the table text twice. -/
theorem template_substitution_counterexample :
    (occurrences placeholder placeholder = 1 ∧
      List.lookup readme_file_path
          (writeFinalOutput [(readme_modify_me_file_path, placeholder)]
            [(placeholder, "No".toList)])
        = some (tableText [(placeholder, "No".toList)]) ∧
      occurrences placeholder (tableText [(placeholder, "No".toList)]) = 2) ∧
    (occurrences placeholder (tableText [] ++ placeholder) = 1 ∧
      List.lookup readme_file_path
          (writeFinalOutput [(readme_modify_me_file_path, tableText [] ++ placeholder)] [])
        = some (tableText [] ++ tableText []) ∧
      occurrences (tableText []) (tableText [] ++ tableText []) = 2) := by
  decide

end MoviesWebsites
